import Mathlib

/-!
Verification of the Nunjucksu controller (src/nunjucksController.ts).

The controller logic is embedded shallowly:

* JavaScript objects and Maps are modelled as association lists together
  with the insertion-order update operation `mapSet` (updating an existing
  key keeps its position, a new key is appended), which is exactly the
  observable behaviour of `Object.assign` and of `Map.set`.
* Filesystem paths are modelled as lists of path components (segments) of
  an absolute, normalized path; rendering with the separator "/" recovers
  the string form.  `path.join` of a directory and a relative path is list
  append, `path.dirname` is `List.dropLast`, `path.basename` is the last
  component.
* YAML values are modelled by the inductive type `JVal`.
* The filesystem is modelled by `FsState`: an association list of files
  (path to contents, contents compared as strings since UTF-8 encoding is
  injective) plus the set of existing directories.
* `process.platform === 'win32'` is a boolean parameter `win32`, and
  `normalizeFsPath` folds case exactly when it is set.
-/

namespace Nunjucksu

/-! ## Association lists with JavaScript object/Map semantics -/

/-- JavaScript `obj[k] = v` / `Map.set`: if the key is present, its value is
replaced in place; otherwise the pair is appended at the end. -/
def mapSet {κ V : Type} [DecidableEq κ] (m : List (κ × V)) (k : κ) (v : V) :
    List (κ × V) :=
  if m.any (fun p => p.1 = k) then
    m.map (fun p => if p.1 = k then (k, v) else p)
  else
    m ++ [(k, v)]

/-- First-match lookup, the JavaScript property read on objects kept
duplicate-free by `mapSet`. -/
def lookupF {κ V : Type} [DecidableEq κ] (k : κ) : List (κ × V) → Option V
  | [] => none
  | p :: m => if p.1 = k then some p.2 else lookupF k m

/-- `Object.assign(tgt, src)`: every key of `src`, in order, overwrites or
is appended to `tgt`. -/
def objAssign {κ V : Type} [DecidableEq κ] (tgt src : List (κ × V)) :
    List (κ × V) :=
  src.foldl (fun acc p => mapSet acc p.1 p.2) tgt

/-- The value a JavaScript object built from these key/value pairs would
hold at key `k`: later pairs win. -/
def valueOf {κ V : Type} [DecidableEq κ] (k : κ) : List (κ × V) → Option V
  | [] => none
  | p :: rest =>
    match valueOf k rest with
    | some v => some v
    | none => if p.1 = k then some p.2 else none

theorem lookupF_of_not_any {κ V : Type} [DecidableEq κ] (k : κ)
    (m : List (κ × V)) (h : m.any (fun p => p.1 = k) = false) :
    lookupF k m = none := by
  induction m with
  | nil => rfl
  | cons p m ih =>
    simp only [List.any_cons, Bool.or_eq_false_iff, decide_eq_false_iff_not] at h
    simp only [lookupF, if_neg h.1]
    exact ih h.2

theorem lookupF_map_update {κ V : Type} [DecidableEq κ] (k k' : κ) (v : V)
    (m : List (κ × V)) :
    lookupF k (m.map (fun p => if p.1 = k' then (k', v) else p)) =
      if k = k' then (if m.any (fun p => p.1 = k') then some v else none)
      else lookupF k m := by
  induction m with
  | nil => by_cases h : k = k' <;> simp [lookupF, h]
  | cons p m ih =>
    simp only [List.map_cons, List.any_cons]
    by_cases hk : k = k'
    · subst hk
      by_cases hp : p.1 = k
      · rw [if_pos hp]; simp [lookupF, hp]
      · rw [if_neg hp]
        simp only [lookupF, if_neg hp, ih]
        have hd : (decide (p.1 = k) : Bool) = false := by simp [hp]
        have hor : (decide (p.1 = k) || m.any fun p => decide (p.1 = k)) =
            (m.any fun p => decide (p.1 = k)) := by rw [hd]; rfl
        simp only [hor]
    · by_cases hp : p.1 = k'
      · rw [if_pos hp]; simp [lookupF, hp, hk, Ne.symm hk, ih]
      · rw [if_neg hp]; simp [lookupF, hp, hk, ih]

theorem lookupF_append_single {κ V : Type} [DecidableEq κ] (k k' : κ) (v : V)
    (m : List (κ × V)) :
    lookupF k (m ++ [(k', v)]) =
      match lookupF k m with
      | some w => some w
      | none => if k' = k then some v else none := by
  induction m with
  | nil => rfl
  | cons p m ih =>
    rw [List.cons_append]
    simp only [lookupF]
    by_cases hp : p.1 = k
    · simp [hp]
    · simp only [if_neg hp]; exact ih

theorem lookupF_mapSet {κ V : Type} [DecidableEq κ] (m : List (κ × V))
    (k k' : κ) (v : V) :
    lookupF k (mapSet m k' v) = if k = k' then some v else lookupF k m := by
  unfold mapSet
  cases hany : m.any (fun p => p.1 = k') with
  | true =>
    rw [if_pos rfl, lookupF_map_update, hany]
    by_cases hk : k = k' <;> simp [hk]
  | false =>
    rw [if_neg (by simp), lookupF_append_single]
    by_cases hk : k = k'
    · subst hk
      rw [lookupF_of_not_any k m hany]
    · rw [if_neg hk]
      cases h : lookupF k m with
      | none => simp [show ¬ k' = k from fun hh => hk hh.symm]
      | some w => simp

theorem valueOf_cons {κ V : Type} [DecidableEq κ] (k : κ) (p : κ × V)
    (m : List (κ × V)) :
    valueOf k (p :: m) =
      match valueOf k m with
      | some v => some v
      | none => if p.1 = k then some p.2 else none := rfl

theorem lookupF_objAssign {κ V : Type} [DecidableEq κ] (k : κ)
    (s : List (κ × V)) : ∀ t : List (κ × V),
    lookupF k (objAssign t s) =
      match valueOf k s with
      | some v => some v
      | none => lookupF k t := by
  induction s with
  | nil => intro t; rfl
  | cons p s ih =>
    intro t
    show lookupF k (objAssign (mapSet t p.1 p.2) s) = _
    rw [ih, valueOf_cons]
    cases hv : valueOf k s with
    | some v => rfl
    | none =>
      simp only [lookupF_mapSet]
      by_cases hk : k = p.1
      · simp [hk]
      · rw [if_neg hk, if_neg (fun h => hk (Eq.symm h))]

/-! ## YAML values and the variable merge of performReload (C3, C9)

`JVal` models a parsed YAML document: scalars, sequences, and mappings
(association lists in document order, later duplicate keys winning as in
JavaScript objects). -/

inductive JVal : Type where
  | vnull : JVal
  | vbool : Bool → JVal
  | vnum : Int → JVal
  | vstr : String → JVal
  | varr : List JVal → JVal
  | vobj : List (String × JVal) → JVal

/-- isPlainObject from the source: an object that is not null and not an
array; on `JVal` exactly the `vobj` constructor. -/
def isPlainObject : JVal → Bool
  | JVal.vobj _ => true
  | _ => false

/-- extractVars from the source: a plain object yields a shallow copy of
itself, anything else yields the empty object. -/
def extractVars : JVal → List (String × JVal)
  | JVal.vobj fields => fields
  | _ => []

/-- Lexicographic comparison of character lists by code point. -/
def lexLe : List Char → List Char → Bool
  | [], _ => true
  | _ :: _, [] => false
  | c :: cs, d :: ds =>
    if c.val < d.val then true
    else if d.val < c.val then false
    else lexLe cs ds

/-- Lower-casing of a string, character by character. -/
def lowerChars (s : String) : List Char :=
  s.data.map Char.toLower

/-- The case-insensitive path comparison used to sort configuration files
(`localeCompare` with sensitivity "base" is modelled as lexicographic
comparison of the lower-cased strings). -/
def configLe (a b : String × JVal) : Bool :=
  lexLe (lowerChars a.1) (lowerChars b.1)

/-- Insert an element in front of the first list element it compares `le`
to; used to build the stable sort below. -/
def insertSortedBy {α : Type} (le : α → α → Bool) (a : α) : List α → List α
  | [] => [a]
  | b :: l => if le a b then a :: b :: l else b :: insertSortedBy le a l

/-- Stable insertion sort, the observable behaviour of the stable
`Array.prototype.sort` used on the configuration file list. -/
def sortStableBy {α : Type} (le : α → α → Bool) : List α → List α
  | [] => []
  | a :: l => insertSortedBy le a (sortStableBy le l)

/-- The variable-merging part of performReload: sort the configuration
files case-insensitively by path and fold their `vars` sections into one
object with `Object.assign` (shallow overwrite). Each input pair is a
config file path together with the parsed value of its `vars` section. -/
def mergeConfigVars (files : List (String × JVal)) : List (String × JVal) :=
  (sortStableBy configLe files).foldl (fun acc f => objAssign acc (extractVars f.2)) []

/-- Specification value: the `vars` value at key `k` of the last file in
the given order that defines `k`. -/
def lastDefined (k : String) : List (String × JVal) → Option JVal
  | [] => none
  | f :: rest =>
    match lastDefined k rest with
    | some v => some v
    | none => valueOf k (extractVars f.2)

theorem lookupF_foldl_objAssign (k : String) (l : List (String × JVal)) :
    ∀ acc : List (String × JVal),
    lookupF k (l.foldl (fun acc f => objAssign acc (extractVars f.2)) acc) =
      match lastDefined k l with
      | some v => some v
      | none => lookupF k acc := by
  induction l with
  | nil => intro acc; rfl
  | cons f l ih =>
    intro acc
    show lookupF k (l.foldl _ (objAssign acc (extractVars f.2))) = _
    rw [ih, lastDefined]
    cases hv : lastDefined k l with
    | some v => rfl
    | none =>
      rw [lookupF_objAssign]
      cases valueOf k (extractVars f.2) <;> rfl

/-- Claim C3 (confirmed): the merged VariableEnvironment applies shallow
overwrite in case-insensitive lexicographic path order — at every key the
merged value is exactly the complete `vars` value of the last sorted file
defining that key (so a later nested mapping fully replaces an earlier
one), and concretely merging nested == \{a:1,b:2\} then nested ==
\{b:9,c:3\} yields nested == \{b:9,c:3\} with key a absent. -/
theorem C3_shallow_merge_ok :
    (∀ (files : List (String × JVal)) (k : String),
        lookupF k (mergeConfigVars files) =
          lastDefined k (sortStableBy configLe files)) ∧
    lookupF "nested" (mergeConfigVars
        [("a.yaml", JVal.vobj [("nested",
            JVal.vobj [("a", JVal.vnum 1), ("b", JVal.vnum 2)])]),
         ("b.yaml", JVal.vobj [("nested",
            JVal.vobj [("b", JVal.vnum 9), ("c", JVal.vnum 3)])])]) =
      some (JVal.vobj [("b", JVal.vnum 9), ("c", JVal.vnum 3)]) := by
  constructor
  · intro files k
    unfold mergeConfigVars
    rw [lookupF_foldl_objAssign]
    cases lastDefined k (sortStableBy configLe files) <;> rfl
  · rfl

/-! ## Combined transform list (C4)

`rebuildTransformsList` from the source: explicit config-file transforms
come first, then the directory-derived template transforms whose canonical
source is not already covered by an explicit transform, deduplicated by
canonical source through a JavaScript `Map`. -/

structure Transform where
  source : String
  target : String
deriving DecidableEq

/-- rebuildTransformsList from the source. `norm` stands for
`normalizeFsPath` (platform-dependent canonicalization). -/
def rebuildTransformsList (norm : String → String)
    (configFileTransforms templateTransforms : List Transform) : List Transform :=
  let configBySource :=
    configFileTransforms.foldl (fun m e => mapSet m (norm e.source) e) []
  let templateBySource :=
    templateTransforms.foldl
      (fun m e =>
        if configBySource.any (fun p => p.1 = norm e.source) then m
        else mapSet m (norm e.source) e) []
  configFileTransforms ++ templateBySource.map (fun p => p.2)

theorem any_key_iff_mem_keys {κ V : Type} [DecidableEq κ] (m : List (κ × V))
    (k : κ) :
    m.any (fun p => p.1 = k) = true ↔ k ∈ m.map (fun p => p.1) := by
  rw [List.any_eq_true]
  constructor
  · rintro ⟨p, hp, hpk⟩
    simp only [decide_eq_true_eq] at hpk
    exact List.mem_map.mpr ⟨p, hp, hpk⟩
  · intro h
    rcases List.mem_map.mp h with ⟨p, hp, hpk⟩
    exact ⟨p, hp, by simp [hpk]⟩

theorem keys_map_update {κ V : Type} [DecidableEq κ] (m : List (κ × V))
    (k : κ) (v : V) :
    (m.map (fun p => if p.1 = k then (k, v) else p)).map (fun p => p.1) =
      m.map (fun p => p.1) := by
  rw [List.map_map]
  apply List.map_congr_left
  intro p hp
  by_cases hpk : p.1 = k
  · simp only [Function.comp_apply, if_pos hpk]; exact hpk.symm
  · simp only [Function.comp_apply, if_neg hpk]

theorem mem_keys_mapSet {κ V : Type} [DecidableEq κ] (m : List (κ × V))
    (k k' : κ) (v : V) :
    k' ∈ (mapSet m k v).map (fun p => p.1) ↔
      k' ∈ m.map (fun p => p.1) ∨ k' = k := by
  unfold mapSet
  cases hany : m.any (fun p => p.1 = k) with
  | true =>
    rw [if_pos rfl, keys_map_update]
    have hk : k ∈ m.map (fun p => p.1) := (any_key_iff_mem_keys m k).mp hany
    constructor
    · exact Or.inl
    · rintro (h | rfl)
      · exact h
      · exact hk
  | false =>
    rw [if_neg (by simp), List.map_append]
    simp

theorem mem_mapSet_cases {κ V : Type} [DecidableEq κ] {m : List (κ × V)}
    {k : κ} {v : V} {q : κ × V} (h : q ∈ mapSet m k v) :
    q = (k, v) ∨ q ∈ m := by
  unfold mapSet at h
  by_cases hany : m.any (fun p => p.1 = k)
  · rw [if_pos hany] at h
    rcases List.mem_map.mp h with ⟨p, hp, hq⟩
    by_cases hpk : p.1 = k
    · left; rw [if_pos hpk] at hq; exact hq.symm
    · right; rw [if_neg hpk] at hq; rw [← hq]; exact hp
  · rw [if_neg hany] at h
    rcases List.mem_append.mp h with h | h
    · right; exact h
    · left; simpa using h

theorem config_fold_keys_complete (norm : String → String)
    (config : List Transform) (s : String) :
    ∀ acc : List (String × Transform),
    (∃ e ∈ config, norm e.source = s) ∨ s ∈ acc.map (fun p => p.1) →
    s ∈ ((config.foldl (fun m e => mapSet m (norm e.source) e) acc).map
      (fun p => p.1)) := by
  induction config with
  | nil =>
    intro acc h
    rcases h with ⟨e, he, _⟩ | h
    · exact absurd he (List.not_mem_nil e)
    · exact h
  | cons e config ih =>
    intro acc h
    show s ∈ ((config.foldl _ (mapSet acc (norm e.source) e)).map _)
    apply ih
    rcases h with ⟨f, hf, hfs⟩ | h
    · rcases List.mem_cons.mp hf with rfl | hf
      · right; exact (mem_keys_mapSet acc (norm f.source) s f).mpr (Or.inr hfs.symm)
      · left; exact ⟨f, hf, hfs⟩
    · right; exact (mem_keys_mapSet acc (norm e.source) s e).mpr (Or.inl h)

theorem template_fold_inv (norm : String → String)
    (cfgMap : List (String × Transform)) (tmpl : List Transform) :
    ∀ acc : List (String × Transform),
    (∀ q ∈ acc, q.1 = norm q.2.source ∧
      cfgMap.any (fun p => p.1 = q.1) = false) →
    ∀ q ∈ tmpl.foldl
      (fun m e =>
        if cfgMap.any (fun p => p.1 = norm e.source) then m
        else mapSet m (norm e.source) e) acc,
      q.1 = norm q.2.source ∧ cfgMap.any (fun p => p.1 = q.1) = false := by
  induction tmpl with
  | nil => intro acc hacc q hq; exact hacc q hq
  | cons e tmpl ih =>
    intro acc hacc
    show ∀ q ∈ tmpl.foldl _
      (if cfgMap.any (fun p => p.1 = norm e.source) then acc
       else mapSet acc (norm e.source) e), _
    apply ih
    intro q hq
    by_cases hc : cfgMap.any (fun p => p.1 = norm e.source) = true
    · rw [if_pos hc] at hq; exact hacc q hq
    · rw [if_neg hc] at hq
      rcases mem_mapSet_cases hq with rfl | hq
      · exact ⟨rfl, by rw [← Bool.not_eq_true]; exact hc⟩
      · exact hacc q hq

/-- Claim C4 (amended): for a canonical source named by an explicit
transform, the combined list restricted to that source consists exactly of
the explicit transforms naming it — every directory-derived entry for that
source is suppressed.  (The original claim said "exactly one" transform
survives; that fails when several explicit transforms share the source,
see the counterexample.) -/
theorem C4_explicit_precedence (norm : String → String)
    (config tmpl : List Transform) (s : String)
    (h : ∃ e ∈ config, norm e.source = s) :
    (rebuildTransformsList norm config tmpl).filter
        (fun t => norm t.source = s) =
      config.filter (fun t => norm t.source = s) := by
  unfold rebuildTransformsList
  rw [List.filter_append]
  have hnil : ∀ b ∈ (tmpl.foldl
      (fun m e =>
        if (config.foldl (fun m e => mapSet m (norm e.source) e) []).any
            (fun p => p.1 = norm e.source) then m
        else mapSet m (norm e.source) e) []).map (fun p => p.2),
      ¬ (norm b.source = s) := by
    intro b hb hbs
    rcases List.mem_map.mp hb with ⟨q, hq, hq2⟩
    have hinv := template_fold_inv norm _ tmpl [] (by intro q hq; cases hq) q hq
    have hkey : q.1 = s := by rw [hinv.1, hq2, hbs]
    have hmem : s ∈ ((config.foldl (fun m e => mapSet m (norm e.source) e)
        []).map (fun p => p.1)) :=
      config_fold_keys_complete norm config s [] (Or.inl h)
    have := (any_key_iff_mem_keys _ s).mpr hmem
    rw [← hkey] at this
    rw [hinv.2] at this
    cases this
  have : ((tmpl.foldl
      (fun m e =>
        if (config.foldl (fun m e => mapSet m (norm e.source) e) []).any
            (fun p => p.1 = norm e.source) then m
        else mapSet m (norm e.source) e) []).map (fun p => p.2)).filter
      (fun t => norm t.source = s) = [] := by
    apply List.filter_eq_nil_iff.mpr
    intro b hb
    simpa using hnil b hb
  rw [this, List.append_nil]

/-- Claim C4 counterexample: with two explicit transforms sharing the
source "/s" and one derived transform for the same source, the combined
list contains two (not exactly one) transforms with that source, even
though the source is named by both an explicit transform and a derived
one. -/
theorem C4_counterexample :
    ((⟨"/s", "/t1"⟩ : Transform) ∈
        ([⟨"/s", "/t1"⟩, ⟨"/s", "/t2"⟩] : List Transform)) ∧
    ((⟨"/s", "/t3"⟩ : Transform) ∈ ([⟨"/s", "/t3"⟩] : List Transform)) ∧
    (rebuildTransformsList id [⟨"/s", "/t1"⟩, ⟨"/s", "/t2"⟩]
        [⟨"/s", "/t3"⟩]).countP (fun t => t.source = "/s") = 2 := by
  refine ⟨by simp, by simp, ?_⟩
  rfl

/-- Witness for C4_explicit_precedence at a concrete input. -/
theorem C4_explicit_precedence_witness :
    (rebuildTransformsList id [⟨"/s", "/t1"⟩] [⟨"/s", "/t3"⟩]).filter
        (fun t => id t.source = "/s") =
      [⟨"/s", "/t1"⟩] := by
  have h := C4_explicit_precedence id [⟨"/s", "/t1"⟩] [⟨"/s", "/t3"⟩] "/s"
    ⟨⟨"/s", "/t1"⟩, by simp, rfl⟩
  rw [h]
  rfl

/-! ## Target writing (C6, C10)

The filesystem is a list of (path, contents) files plus a list of existing
directories; paths are segment lists.  `writeTarget` from the source:
create the target's parent directory (with intermediate directories, as
`vscode.workspace.fs.createDirectory` does), then compare the rendered
bytes with the current target contents, skipping the write when they are
identical.  Contents are compared as strings: UTF-8 encoding is injective,
so byte equality of the encodings is string equality. -/

structure FsState where
  files : List (List String × String)
  dirs : List (List String)
deriving DecidableEq

/-- All directories createDirectory brings into existence for `d`: every
nonempty segment-list head of `d`, including `d` itself. -/
def ancestorsOf (d : List String) : List (List String) :=
  (List.range d.length).map (fun i => d.take (i + 1))

/-- Recursive directory creation: add every missing ancestor of `d`. -/
def createDirAll (dirs : List (List String)) (d : List String) :
    List (List String) :=
  dirs ++ (ancestorsOf d).filter (fun a => decide (a ∉ dirs))

/-- writeTarget from the source: create the parent directory, read the
current target, skip the write when the contents are byte-identical,
otherwise overwrite.  The boolean reports whether a write happened. -/
def writeTarget (fs : FsState) (target : List String) (contents : String) :
    FsState × Bool :=
  let fs1 : FsState := { fs with dirs := createDirAll fs.dirs target.dropLast }
  match lookupF target fs1.files with
  | some current =>
    if current = contents then (fs1, false)
    else ({ fs1 with files := mapSet fs1.files target contents }, true)
  | none => ({ fs1 with files := mapSet fs1.files target contents }, true)

theorem writeTarget_lookup (fs : FsState) (p : List String) (c : String) :
    lookupF p (writeTarget fs p c).1.files = some c := by
  simp only [writeTarget]
  cases h : lookupF p fs.files with
  | some current =>
    by_cases hc : current = c
    · simp [h, hc]
    · simp [h, hc, lookupF_mapSet]
  | none => simp [h, lookupF_mapSet]

/-- Claim C6 (confirmed): rendering the same FileTransform twice with an
unchanged VariableEnvironment and unchanged source content produces the
same rendered string, and writing that string a second time performs no
write — after any writeTarget the target holds exactly the rendered
contents, and a writeTarget of contents already present reports no
write. -/
theorem C6_second_render_writes_nothing (fs : FsState) (p : List String)
    (c : String) :
    (writeTarget (writeTarget fs p c).1 p c).2 = false ∧
    lookupF p (writeTarget fs p c).1.files = some c := by
  refine ⟨?_, writeTarget_lookup fs p c⟩
  have h := writeTarget_lookup fs p c
  generalize hfs : (writeTarget fs p c).1 = fs1 at h
  simp [writeTarget, h]

theorem mem_createDirAll (dirs : List (List String)) (d x : List String) :
    x ∈ createDirAll dirs d ↔ x ∈ dirs ∨ x ∈ ancestorsOf d := by
  unfold createDirAll
  rw [List.mem_append, List.mem_filter]
  constructor
  · rintro (h | ⟨h, _⟩)
    · exact Or.inl h
    · exact Or.inr h
  · rintro (h | h)
    · exact Or.inl h
    · by_cases hx : x ∈ dirs
      · exact Or.inl hx
      · exact Or.inr ⟨h, by simpa using hx⟩

/-- Claim C10 (confirmed): writeTarget creates the parent directory chain
before (and regardless of) the byte comparison, so even a content-identical
skipped write creates the missing intermediate directories; no file other
than the target is modified, and on a content-identical render nothing is
written and the file table is untouched. -/
theorem C10_writeTarget_frame (fs : FsState) (p : List String) (c : String) :
    (∀ d, d ∈ (writeTarget fs p c).1.dirs ↔
        d ∈ fs.dirs ∨ d ∈ ancestorsOf p.dropLast) ∧
    (∀ q, q ≠ p → lookupF q (writeTarget fs p c).1.files = lookupF q fs.files) ∧
    (lookupF p fs.files = some c →
      (writeTarget fs p c).2 = false ∧ (writeTarget fs p c).1.files = fs.files) := by
  refine ⟨?_, ?_, ?_⟩
  · intro d
    simp only [writeTarget]
    cases h : lookupF p fs.files with
    | some current =>
      by_cases hc : current = c
      · simp only [h, if_pos hc]
        exact mem_createDirAll fs.dirs p.dropLast d
      · simp only [h, if_neg hc]
        exact mem_createDirAll fs.dirs p.dropLast d
    | none =>
      simp only [h]
      exact mem_createDirAll fs.dirs p.dropLast d
  · intro q hq
    simp only [writeTarget]
    cases h : lookupF p fs.files with
    | some current =>
      by_cases hc : current = c
      · simp [h, hc]
      · simp [h, hc, lookupF_mapSet, hq]
    | none => simp [h, lookupF_mapSet, hq]
  · intro h
    simp [writeTarget, h]

/-- Witness for C10_writeTarget_frame at a concrete input: a
content-identical write reports no write, leaves other files alone, and
still creates the two missing parent directories. -/
theorem C10_writeTarget_frame_witness :
    (writeTarget ⟨[(["t", "s", "f"], "x")], []⟩ ["t", "s", "f"] "x").2 = false ∧
    lookupF ["q"] (writeTarget ⟨[(["t", "s", "f"], "x")], []⟩
        ["t", "s", "f"] "x").1.files =
      lookupF ["q"] (⟨[(["t", "s", "f"], "x")], []⟩ : FsState).files ∧
    (["t"] ∈ (writeTarget ⟨[(["t", "s", "f"], "x")], []⟩
        ["t", "s", "f"] "x").1.dirs ∧
     ["t", "s"] ∈ (writeTarget ⟨[(["t", "s", "f"], "x")], []⟩
        ["t", "s", "f"] "x").1.dirs) := by
  have h := C10_writeTarget_frame ⟨[(["t", "s", "f"], "x")], []⟩ ["t", "s", "f"] "x"
  refine ⟨(h.2.2 rfl).1, h.2.1 ["q"] (by decide), ?_, ?_⟩
  · exact (h.1 ["t"]).mpr (Or.inr (by decide))
  · exact (h.1 ["t", "s"]).mpr (Or.inr (by decide))

/-! ## Path resolution, search paths, template names (C7, C8)

A raw configuration path is an absolute/relative flag plus normalized
segments (inputs are taken as already `path.normalize`d: `path.resolve`
and `path.normalize` never return the empty string, so the falsy-path
check of the source never fires and is not modelled).  The check
`relative.startsWith("..")` of the source is modelled on the first
segment: rendering puts a separator after the first segment, so the
rendered relative path starts with two dots exactly when its first segment
does. -/

structure RawPath where
  abs : Bool
  segs : List String
deriving DecidableEq

structure TransformSpecP where
  source : RawPath
  target : RawPath
deriving DecidableEq

structure FileTransformEntryP where
  source : List String
  target : List String
  searchPaths : List (List String)
  templateName : String
deriving DecidableEq

/-- resolvePath from the source: absolute paths pass through, relative
paths resolve against the workspace folder if present, else against the
directory of the configuration file. -/
def resolvePath (value : RawPath) (workspaceFolder : Option (List String))
    (configDir : List String) : List String :=
  if value.abs then value.segs
  else (workspaceFolder.getD configDir) ++ value.segs

/-- normalizeFsPath from the source: `path.resolve` then lower-casing on
win32 only. -/
def normalizeFsPath (win32 : Bool) (p : List String) : List String :=
  if win32 then p.map (fun s => String.mk (lowerChars s)) else p

/-- uniquePaths from the source: drop empty entries, deduplicate keeping
first occurrences. -/
def uniquePaths (l : List (List String)) : List (List String) :=
  l.foldl (fun acc p => if p = [] then acc
                        else if p ∈ acc then acc else acc ++ [p]) []

/-- buildSearchPaths from the source: the source file directory, then the
workspace folder, then each user-configured additional search path
(resolved against the workspace folder, or against the process working
directory without one), deduplicated. -/
def buildSearchPaths (sourcePath : List String) (wf : Option (List String))
    (additional : List RawPath) (cwd : List String) : List (List String) :=
  uniquePaths ([sourcePath.dropLast] ++
    (match wf with | some w => [w] | none => []) ++
    additional.map (fun a => if a.abs then a.segs else (wf.getD cwd) ++ a.segs))

/-- Number of equal leading segments of two paths. -/
def commonCount : List String → List String → Nat
  | a :: as, b :: bs => if a = b then commonCount as bs + 1 else 0
  | _, _ => 0

/-- path.relative on segment paths: climb out of the unshared part of the
base with ".." segments, then descend into the unshared part of the
source. -/
def pathRelative (base src : List String) : List String :=
  List.replicate (base.length - commonCount base src) ".." ++
    src.drop (commonCount base src)

/-- The string form of a relative segment path with "/" separators
(`relative.split(path.sep).join("/")` of the source). -/
def renderRel : List String → String
  | [] => ""
  | [a] => a
  | a :: rest => a ++ "/" ++ renderRel rest

/-- Whether a string starts with two dots (the `startsWith("..")` test of
the source). -/
def charStartsDotDot (s : String) : Bool :=
  decide (s.data.take 2 = ['.', '.'])

/-- Whether the rendered form of a relative segment path starts with two
dots: a separator follows the first segment, so this is the test on the
first segment. -/
def relStartsDotDot : List String → Bool
  | [] => false
  | a :: _ => charStartsDotDot a

/-- deriveTemplateName from the source: the first search path whose
relative path to the source does not start with ".." (it is never absolute
for two absolute inputs) gives the lookup name; otherwise the base name of
the source. -/
def deriveTemplateName (sourcePath : List String) :
    List (List String) → String
  | [] => sourcePath.getLastD ""
  | base :: rest =>
    if relStartsDotDot (pathRelative base sourcePath) then
      deriveTemplateName sourcePath rest
    else renderRel (pathRelative base sourcePath)

/-- The `templateName.trim() === ""` test of the source: every character
is whitespace. -/
def trimEmpty (s : String) : Bool :=
  s.data.all Char.isWhitespace

/-- createFileTransformEntry from the source: resolve both paths, drop the
spec when the source does not exist, when source and target coincide after
canonicalization, or when the derived template name is blank; otherwise
produce the entry. -/
def createFileTransformEntry (win32 : Bool) (fsExists : List String → Bool)
    (additional : List RawPath) (cwd : List String) (spec : TransformSpecP)
    (workspaceFolder : Option (List String)) (configDir : List String) :
    Option FileTransformEntryP :=
  let sourcePath := resolvePath spec.source workspaceFolder configDir
  let targetPath := resolvePath spec.target workspaceFolder configDir
  if fsExists sourcePath = false then none
  else if normalizeFsPath win32 sourcePath = normalizeFsPath win32 targetPath then
    none
  else
    let searchPaths := buildSearchPaths sourcePath workspaceFolder additional cwd
    let templateName := deriveTemplateName sourcePath searchPaths
    if trimEmpty templateName then none
    else some ⟨sourcePath, targetPath, searchPaths, templateName⟩

/-- Claim C7 (confirmed): file-transform creation returns no entry exactly
when the resolved source does not exist, or the canonicalized source
equals the canonicalized target, or the derived template lookup name is
blank; and under win32 canonicalization (the platform flag standing for a
case-insensitive filesystem) a transform whose resolved source and target
differ only in letter case is always dropped. -/
theorem C7_creation_failure_exact :
    (∀ (win32 : Bool) (fsExists : List String → Bool)
        (additional : List RawPath) (cwd : List String) (spec : TransformSpecP)
        (wf : Option (List String)) (configDir : List String),
      createFileTransformEntry win32 fsExists additional cwd spec wf configDir
          = none ↔
        (fsExists (resolvePath spec.source wf configDir) = false ∨
         normalizeFsPath win32 (resolvePath spec.source wf configDir) =
           normalizeFsPath win32 (resolvePath spec.target wf configDir) ∨
         trimEmpty (deriveTemplateName (resolvePath spec.source wf configDir)
           (buildSearchPaths (resolvePath spec.source wf configDir) wf
             additional cwd)) = true)) ∧
    (∀ (fsExists : List String → Bool) (additional : List RawPath)
        (cwd : List String) (spec : TransformSpecP)
        (wf : Option (List String)) (configDir : List String),
      (resolvePath spec.source wf configDir).map (fun s => String.mk (lowerChars s)) =
        (resolvePath spec.target wf configDir).map (fun s => String.mk (lowerChars s)) →
      createFileTransformEntry true fsExists additional cwd spec wf configDir
        = none) := by
  constructor
  · intro win32 fsExists additional cwd spec wf configDir
    simp only [createFileTransformEntry]
    by_cases h1 : fsExists (resolvePath spec.source wf configDir) = false
    · simp [h1]
    · by_cases h2 : normalizeFsPath win32 (resolvePath spec.source wf configDir) =
          normalizeFsPath win32 (resolvePath spec.target wf configDir)
      · simp [h1, h2]
      · by_cases h3 : trimEmpty (deriveTemplateName
            (resolvePath spec.source wf configDir)
            (buildSearchPaths (resolvePath spec.source wf configDir) wf
              additional cwd)) = true
        · simp [h1, h2, h3]
        · simp [h1, h2, h3]
  · intro fsExists additional cwd spec wf configDir h
    simp only [createFileTransformEntry]
    by_cases h1 : fsExists (resolvePath spec.source wf configDir) = false
    · simp [h1]
    · simp [h1, normalizeFsPath, h]

/-- Witness for C7_creation_failure_exact: a transform whose source and
target differ only in case is dropped under win32 canonicalization. -/
theorem C7_creation_failure_exact_witness :
    createFileTransformEntry true (fun _ => true) [] []
      ⟨⟨true, ["A", "B"]⟩, ⟨true, ["a", "b"]⟩⟩ none [] = none := by
  exact C7_creation_failure_exact.2 (fun _ => true) [] []
    ⟨⟨true, ["A", "B"]⟩, ⟨true, ["a", "b"]⟩⟩ none [] (by decide)

theorem commonCount_le_left (a : List String) : ∀ b : List String,
    commonCount a b ≤ a.length := by
  induction a with
  | nil => intro b; exact Nat.zero_le _
  | cons x xs ih =>
    intro b
    cases b with
    | nil => exact Nat.zero_le _
    | cons y ys =>
      show (if x = y then commonCount xs ys + 1 else 0) ≤ xs.length + 1
      by_cases h : x = y
      · rw [if_pos h]; exact Nat.succ_le_succ (ih ys)
      · rw [if_neg h]; exact Nat.zero_le _

theorem commonCount_eq_iff (base : List String) : ∀ src : List String,
    commonCount base src = base.length ↔ src.take base.length = base := by
  induction base with
  | nil =>
    intro src
    constructor
    · intro _; rfl
    · intro _; rfl
  | cons x xs ih =>
    intro src
    cases src with
    | nil =>
      constructor
      · intro h
        have h0 : commonCount (x :: xs) ([] : List String) = 0 := rfl
        rw [h0] at h
        exact absurd h.symm (Nat.succ_ne_zero _)
      · intro h
        rw [List.take_nil] at h
        cases h
    | cons y ys =>
      show (if x = y then commonCount xs ys + 1 else 0) = xs.length + 1 ↔
        (y :: ys).take (xs.length + 1) = x :: xs
      rw [List.take_succ_cons]
      by_cases h : x = y
      · rw [if_pos h]
        constructor
        · intro hc
          have := (ih ys).mp (Nat.succ_injective hc)
          rw [this, h]
        · intro hc
          have h1 : y = x := (List.cons.injEq _ _ _ _ ▸ hc).1
          have h2 : ys.take xs.length = xs := (List.cons.injEq _ _ _ _ ▸ hc).2
          rw [(ih ys).mpr h2]
      · rw [if_neg h]
        constructor
        · intro hc; exact absurd hc.symm (Nat.succ_ne_zero _)
        · intro hc
          have h1 : y = x := (List.cons.injEq _ _ _ _ ▸ hc).1
          exact absurd h1.symm h

theorem relStartsDotDot_eq_head (l : List String) :
    relStartsDotDot l = charStartsDotDot (l.headD "") := by
  cases l with
  | nil => rfl
  | cons a l => rfl

theorem pathRelative_of_take {base src : List String}
    (hb : src.take base.length = base) :
    pathRelative base src = src.drop base.length := by
  unfold pathRelative
  rw [(commonCount_eq_iff base src).mpr hb, Nat.sub_self, List.replicate_zero,
    List.nil_append]

theorem relStartsDotDot_true_of_not_take {base src : List String}
    (hb : ¬ src.take base.length = base) :
    relStartsDotDot (pathRelative base src) = true := by
  unfold pathRelative
  have hk : commonCount base src < base.length := by
    rcases Nat.lt_or_ge (commonCount base src) base.length with h | h
    · exact h
    · exact absurd ((commonCount_eq_iff base src).mp
        (Nat.le_antisymm (commonCount_le_left base src) h)) hb
  cases hsub : base.length - commonCount base src with
  | zero => exact absurd (Nat.sub_eq_zero_iff_le.mp hsub) (Nat.not_le_of_lt hk)
  | succ m =>
    rw [List.replicate_succ, List.cons_append]
    rfl

/-- Claim C8 (amended): for every source path and search-path list, the
derived template lookup name comes from the first search path whose
segments are a head of the source path (the source being a descendant or
the search path itself) and whose remaining relative part does not begin
with a segment starting with two dots; that search path yields the
relative path with "/" separators — empty when source and search path are
equal; when no search path passes the test, the base name of the source
is used.  (The original claim required a proper descendant and accepted
any descendant without dot-dot segments: the code also accepts the search
path equal to the source with an empty name, and rejects a descendant
whose first remaining segment merely begins with two dots — both shown in
the counterexample.) -/
theorem C8_template_name_from_head (sourcePath : List String)
    (searchPaths : List (List String)) :
    deriveTemplateName sourcePath searchPaths =
      match searchPaths.find? (fun base =>
          decide (sourcePath.take base.length = base) &&
          ! charStartsDotDot ((sourcePath.drop base.length).headD "")) with
      | some base => renderRel (sourcePath.drop base.length)
      | none => sourcePath.getLastD "" := by
  induction searchPaths with
  | nil => rfl
  | cons base rest ih =>
    simp only [deriveTemplateName]
    by_cases hb : sourcePath.take base.length = base
    · cases hhead : charStartsDotDot ((sourcePath.drop base.length).headD "") with
      | false =>
        rw [if_neg (by
            rw [pathRelative_of_take hb, relStartsDotDot_eq_head, hhead]
            simp),
          List.find?_cons_of_pos _ (by rw [decide_eq_true hb, hhead]; rfl),
          pathRelative_of_take hb]
      | true =>
        rw [if_pos (by
            rw [pathRelative_of_take hb, relStartsDotDot_eq_head, hhead]),
          List.find?_cons_of_neg _ (by rw [decide_eq_true hb, hhead]; simp)]
        exact ih
    · rw [if_pos (by rw [relStartsDotDot_true_of_not_take hb]),
        List.find?_cons_of_neg _ (by rw [decide_eq_false hb]; simp)]
      exact ih

/-- Claim C8 counterexample, both divergences from the code.  First: when
the source path equals the only search path, the source is not a proper
descendant of it, so the claim requires the fallback base name "b"; the
code instead accepts the empty relative path and returns the empty lookup
name.  Second: for source a/..foo/x under search path a, the source is a
proper descendant and the relative path ..foo/x contains no dot-dot
segment, so the claim requires the name ..foo/x; the startsWith test of
the code misclassifies it and falls back to the base name "x". -/
theorem C8_counterexample :
    (deriveTemplateName ["a", "b"] [["a", "b"]] = "" ∧
     ¬ deriveTemplateName ["a", "b"] [["a", "b"]] =
        List.getLastD ["a", "b"] "") ∧
    (deriveTemplateName ["a", "..foo", "x"] [["a"]] = "x" ∧
     ¬ deriveTemplateName ["a", "..foo", "x"] [["a"]] =
        renderRel (["a", "..foo", "x"].drop 1)) := by
  refine ⟨⟨rfl, ?_⟩, rfl, ?_⟩
  · intro h
    exact absurd h (by decide)
  · intro h
    exact absurd h (by decide)

/-! ## Directory transform expansion (C5)

A directory tree is a list of named entries, each a file or a
subdirectory.  `walkDirectoryForTemplates` mirrors the source: iterate the
entries of the current directory in order, collect a file whose name ends
with the template extension (case-insensitively), and descend into
subdirectories only when the transform is recursive.  Relative paths are
segment lists (`path.join(relativePath, name)` is append).  The template
extension is taken slash-free, so the suffix test of the source on the
rendered relative path is the suffix test on its last segment. -/

mutual
inductive FsNode : Type where
  | file : FsNode
  | dir : FsEntries → FsNode
inductive FsEntries : Type where
  | nil : FsEntries
  | cons (name : String) (node : FsNode) (rest : FsEntries) : FsEntries
end

/-- Case-insensitive suffix test (`a.toLowerCase().endsWith(b.toLowerCase())`
with `ext` as the suffix). -/
def endsWithCI (ext name : String) : Bool :=
  decide ((lowerChars name).drop
    ((lowerChars name).length - (lowerChars ext).length) = lowerChars ext)

/-- walkDirectoryForTemplates from the source. -/
def walkDirectoryForTemplates (ext : String) (recursive : Bool) :
    FsEntries → List String → List (List String)
  | FsEntries.nil, _ => []
  | FsEntries.cons name FsNode.file rest, rel =>
    (if endsWithCI ext name then [rel ++ [name]] else []) ++
      walkDirectoryForTemplates ext recursive rest rel
  | FsEntries.cons name (FsNode.dir children) rest, rel =>
    (if recursive then
       walkDirectoryForTemplates ext recursive children (rel ++ [name])
     else []) ++
      walkDirectoryForTemplates ext recursive rest rel

/-- Specification-side enumeration: every file of the tree with its
relative segment path, in traversal order. -/
def collectTemplateFiles : FsEntries → List String → List (List String)
  | FsEntries.nil, _ => []
  | FsEntries.cons name FsNode.file rest, rel =>
    (rel ++ [name]) :: collectTemplateFiles rest rel
  | FsEntries.cons name (FsNode.dir children) rest, rel =>
    collectTemplateFiles children (rel ++ [name]) ++
      collectTemplateFiles rest rel

theorem collectTemplateFiles_length :
    ∀ (es : FsEntries) (rel p : List String),
      p ∈ collectTemplateFiles es rel → rel.length < p.length
  | FsEntries.nil, rel, p, h => by cases h
  | FsEntries.cons name FsNode.file rest, rel, p, h => by
    rcases List.mem_cons.mp h with rfl | h
    · simp
    · exact collectTemplateFiles_length rest rel p h
  | FsEntries.cons name (FsNode.dir children) rest, rel, p, h => by
    rcases List.mem_append.mp h with h | h
    · have hlt := collectTemplateFiles_length children (rel ++ [name]) p h
      simp only [List.length_append, List.length_cons, List.length_nil] at hlt
      omega
    · exact collectTemplateFiles_length rest rel p h

theorem walk_eq_filter (ext : String) (recursive : Bool) :
    ∀ (es : FsEntries) (rel : List String),
    walkDirectoryForTemplates ext recursive es rel =
      (collectTemplateFiles es rel).filter
        (fun p => endsWithCI ext (p.getLastD "") &&
          (recursive || p.length == rel.length + 1))
  | FsEntries.nil, rel => rfl
  | FsEntries.cons name FsNode.file rest, rel => by
    simp only [walkDirectoryForTemplates, collectTemplateFiles,
      List.filter_cons]
    rw [walk_eq_filter ext recursive rest rel]
    have hlast : (rel ++ [name]).getLastD "" = name := by
      simp [List.getLastD_concat]
    have hlen : ((rel ++ [name]).length == rel.length + 1) = true := by
      simp
    cases he : endsWithCI ext name <;>
      simp [hlast, hlen, he]
  | FsEntries.cons name (FsNode.dir children) rest, rel => by
    simp only [walkDirectoryForTemplates, collectTemplateFiles,
      List.filter_append]
    rw [walk_eq_filter ext recursive rest rel]
    cases recursive with
    | true =>
      rw [walk_eq_filter ext true children (rel ++ [name]), if_pos rfl]
      rfl
    | false =>
      have hnil : (collectTemplateFiles children (rel ++ [name])).filter
          (fun p => endsWithCI ext (p.getLastD "") &&
            (false || p.length == rel.length + 1)) = [] := by
        apply List.filter_eq_nil_iff.mpr
        intro p hp
        have hlt := collectTemplateFiles_length children (rel ++ [name]) p hp
        simp only [List.length_append, List.length_cons, List.length_nil] at hlt
        simp only [Bool.false_or, Bool.and_eq_true, beq_iff_eq]
        intro hand
        omega
      rw [hnil]
      rfl

/-- stripNjkExtension from the source: drop the extension length from the
end when the name ends with the extension case-insensitively. -/
def stripNjkExtension (ext value : String) : String :=
  if endsWithCI ext value then
    String.mk (value.data.take (value.data.length - ext.data.length))
  else value

/-- createDirectoryFileTransform from the source, target computation: the
suffix recheck, the non-recursive depth check (`includes(path.sep)` on the
relative path is having more than one segment), and the target path
`targetDir` joined with the extension-stripped relative path. -/
def createDirectoryFileTransformTarget (ext : String) (recursive : Bool)
    (targetDir : List String) (rel : List String) : Option (List String) :=
  if ¬ endsWithCI ext (rel.getLastD "") then none
  else if ¬ recursive ∧ rel.length > 1 then none
  else some (targetDir ++
    (rel.dropLast ++ [stripNjkExtension ext (rel.getLastD "")]))

/-- Expansion of one DirectoryTransform into target paths. -/
def expandDirectoryTransform (ext : String) (recursive : Bool)
    (targetDir : List String) (es : FsEntries) : List (List String) :=
  (walkDirectoryForTemplates ext recursive es []).filterMap
    (createDirectoryFileTransformTarget ext recursive targetDir)

/-- The example tree of the claim: a.ext and sub/b.ext. -/
def sampleTree : FsEntries :=
  FsEntries.cons "a.ext" FsNode.file
    (FsEntries.cons "sub"
      (FsNode.dir (FsEntries.cons "b.ext" FsNode.file FsEntries.nil))
      FsEntries.nil)

/-- Claim C5 (confirmed): expansion enumerates exactly the files whose
names end case-insensitively with the template extension — the full
subtree when recursive, only direct children otherwise; every enumerated
file yields a FileTransform whose target is the target directory joined
with the source's relative path, extension stripped; and on the example
tree with a.ext and sub/b.ext the targets are target/a and target/sub/b
when recursive and only target/a when not. -/
theorem C5_directory_expansion :
    (∀ (ext : String) (recursive : Bool) (es : FsEntries) (rel : List String),
      walkDirectoryForTemplates ext recursive es rel =
        (collectTemplateFiles es rel).filter
          (fun p => endsWithCI ext (p.getLastD "") &&
            (recursive || p.length == rel.length + 1))) ∧
    (∀ (ext : String) (recursive : Bool) (targetDir : List String)
        (es : FsEntries) (rel : List String),
      rel ∈ walkDirectoryForTemplates ext recursive es [] →
      createDirectoryFileTransformTarget ext recursive targetDir rel =
        some (targetDir ++
          (rel.dropLast ++ [stripNjkExtension ext (rel.getLastD "")]))) ∧
    expandDirectoryTransform ".ext" true ["target"] sampleTree =
      [["target", "a"], ["target", "sub", "b"]] ∧
    expandDirectoryTransform ".ext" false ["target"] sampleTree =
      [["target", "a"]] := by
  refine ⟨walk_eq_filter, ?_, by decide, by decide⟩
  intro ext recursive targetDir es rel h
  rw [walk_eq_filter ext recursive es []] at h
  have hcond := List.of_mem_filter h
  simp only [Bool.and_eq_true, Bool.or_eq_true, beq_iff_eq,
    List.length_nil] at hcond
  unfold createDirectoryFileTransformTarget
  rw [if_neg (not_not_intro hcond.1)]
  have hnotdeep : ¬ (¬ recursive = true ∧ rel.length > 1) := by
    rcases hcond.2 with hrec | hlen
    · intro hc; exact hc.1 hrec
    · intro hc; omega
  rw [if_neg hnotdeep]

/-- Witness for C5_directory_expansion at a concrete input: the file
sub/b.ext of the example tree gets target target/sub/b. -/
theorem C5_directory_expansion_witness :
    createDirectoryFileTransformTarget ".ext" true ["target"]
        ["sub", "b.ext"] =
      some (["target"] ++ (["sub", "b.ext"].dropLast ++
        [stripNjkExtension ".ext" (["sub", "b.ext"].getLastD "")])) := by
  exact C5_directory_expansion.2.1 ".ext" true ["target"] sampleTree
    ["sub", "b.ext"] (by decide)

/-! ## Per-file isolation of configuration loading (C9)

`readConfigParsed` models readConfig on the parsed document of one
configuration file: `none` stands for a thrown YAML parse error, a
non-mapping root is rejected, and otherwise the `vars` section and the
transform specs are extracted.  `performReloadGather` models the gathering
loop of performReload: a file whose readConfig fails is skipped and the
loop continues.  The transform-spec extraction is an arbitrary function
parameter — its shape handling is irrelevant to this claim. -/

/-- Property read `v[k]` with `undefined` as `vnull`. -/
def objGetD (v : JVal) (k : String) : JVal :=
  match v with
  | JVal.vobj fields => (lookupF k fields).getD JVal.vnull
  | _ => JVal.vnull

/-- readConfig from the source, on one parsed document. -/
def readConfigParsed {X : Type} (parsed : Option JVal)
    (extractSpecs : JVal → List X) :
    Except String (List (String × JVal) × List X) :=
  match parsed with
  | none => Except.error "YAML parse error"
  | some v =>
    if isPlainObject v then
      Except.ok (extractVars (objGetD v "vars"),
        extractSpecs (objGetD v "transforms"))
    else Except.error "Configuration root must be a mapping."

/-- Whether readConfig succeeds on a file. -/
def readConfigOk {X : Type} (extractSpecs : JVal → List X)
    (parsed : Option JVal) : Bool :=
  match readConfigParsed parsed extractSpecs with
  | Except.ok _ => true
  | Except.error _ => false

/-- The gathering loop of performReload: merge the vars and append the
transform specs of every file whose readConfig succeeds, skipping the
failed ones. -/
def performReloadGather {X : Type} (files : List (Option JVal))
    (extractSpecs : JVal → List X) :
    List (String × JVal) × List X :=
  files.foldl (fun acc parsed =>
    match readConfigParsed parsed extractSpecs with
    | Except.error _ => acc
    | Except.ok (vars, specs) => (objAssign acc.1 vars, acc.2 ++ specs))
    ([], [])

theorem performReloadGather_foldl_filter {X : Type}
    (extractSpecs : JVal → List X) (files : List (Option JVal)) :
    ∀ acc : List (String × JVal) × List X,
    files.foldl (fun acc parsed =>
      match readConfigParsed parsed extractSpecs with
      | Except.error _ => acc
      | Except.ok (vars, specs) => (objAssign acc.1 vars, acc.2 ++ specs)) acc =
    (files.filter (readConfigOk extractSpecs)).foldl (fun acc parsed =>
      match readConfigParsed parsed extractSpecs with
      | Except.error _ => acc
      | Except.ok (vars, specs) => (objAssign acc.1 vars, acc.2 ++ specs)) acc := by
  induction files with
  | nil => intro acc; rfl
  | cons f files ih =>
    intro acc
    rw [List.foldl_cons, List.filter_cons]
    cases hr : readConfigParsed f extractSpecs with
    | error e =>
      have hok : readConfigOk extractSpecs f = false := by
        unfold readConfigOk; rw [hr]
      rw [hok, if_neg (by simp)]
      simp only [hr]
      exact ih acc
    | ok vs =>
      obtain ⟨vars, specs⟩ := vs
      have hok : readConfigOk extractSpecs f = true := by
        unfold readConfigOk; rw [hr]
      rw [hok, if_pos rfl, List.foldl_cons]
      simp only [hr]
      exact ih _

/-- Claim C9 (confirmed): a configuration file whose parse fails or whose
root is not a mapping is skipped and contributes nothing, while the
variables and transforms of every other file are still merged — the
gathered result over any file list equals the result over the successful
files alone, and on a concrete list with one parse failure and one
non-mapping root the two good files both contribute. -/
theorem C9_bad_config_file_isolated :
    (∀ (X : Type) (extractSpecs : JVal → List X)
        (files : List (Option JVal)),
      performReloadGather files extractSpecs =
        performReloadGather (files.filter (readConfigOk extractSpecs))
          extractSpecs) ∧
    performReloadGather
        [some (JVal.vobj [("vars", JVal.vobj [("a", JVal.vnum 1)])]),
         none,
         some (JVal.vstr "bad root"),
         some (JVal.vobj [("vars", JVal.vobj [("b", JVal.vnum 2)])])]
        (fun _ => ([] : List Unit)) =
      ([("a", JVal.vnum 1), ("b", JVal.vnum 2)], []) := by
  constructor
  · intro X extractSpecs files
    unfold performReloadGather
    exact performReloadGather_foldl_filter extractSpecs files ([], [])
  · rfl

/-! ## Cycle detection (C1)

detectAndRemoveCycles from the source: build the directed graph of
canonical source to target edges, run the recursive depth-first search
with a persistent visited set, recursion stack and cycle-node set (the
source leaves a node on the recursion stack when the search below it
reported a cycle), then drop every transform whose canonical source or
target is a marked node.

The search of the source is recursion over the graph; the embedding adds
explicit fuel, and the specification below is proved for any fuel larger
than the number of unvisited nodes, which the top-level entry point
always supplies.

Specification side: `reachesCycle g v` holds when some directed cycle is
reachable from `v` (in particular when `v` lies on a cycle). -/

section CycleDetection

variable {α : Type}

/-- One edge of the adjacency-list graph. -/
def stepRel (g : α → List α) (a b : α) : Prop := b ∈ g a

/-- The node lies on a directed cycle of length at least one. -/
def onCycle (g : α → List α) (v : α) : Prop :=
  ∃ w, w ∈ g v ∧ Relation.ReflTransGen (stepRel g) w v

/-- Some directed cycle is reachable from the node. -/
def reachesCycle (g : α → List α) (u : α) : Prop :=
  ∃ v, Relation.ReflTransGen (stepRel g) u v ∧ onCycle g v

theorem reachesCycle_iff (g : α → List α) (x : α) :
    reachesCycle g x ↔ ∃ m, m ∈ g x ∧ reachesCycle g m := by
  constructor
  · rintro ⟨v, hxv, hv⟩
    rcases Relation.ReflTransGen.cases_head hxv with rfl | ⟨m, hxm, hmv⟩
    · obtain ⟨w, hxw, hwx⟩ := hv
      exact ⟨w, hxw, ⟨x, hwx, ⟨w, hxw, hwx⟩⟩⟩
    · exact ⟨m, hxm, ⟨v, hmv, hv⟩⟩
  · rintro ⟨m, hxm, v, hmv, hv⟩
    exact ⟨v, Relation.ReflTransGen.head hxm hmv, hv⟩

/-- A list of nodes closed under the edges of the graph is closed under
reachability. -/
theorem rtgClosedList (g : α → List α) (S : List α)
    (hS : ∀ z ∈ S, ∀ z' ∈ g z, z' ∈ S) {a b : α} (ha : a ∈ S)
    (h : Relation.ReflTransGen (stepRel g) a b) : b ∈ S := by
  induction h with
  | refl => exact ha
  | tail hab hbc ih => exact hS _ ih _ hbc

variable [DecidableEq α]

/-- The mutable state of the depth-first search: the visited set, the
recursion stack and the set of cycle-involved nodes. -/
structure DfsState (α : Type) [DecidableEq α] where
  visited : Finset α
  stack : Finset α
  cycles : Finset α

/-- hasCycle from the source: a node on the recursion stack reports a
cycle and is marked; a visited node off the stack reports none; otherwise
the node is pushed, its neighbors searched in order with early exit on the
first cycle, the node marked and left on the stack on a cycle, or popped
off the stack on none.  The neighbor loop with its early exit is the fold
of `dfsStep`. -/
def hasCycle (g : α → List α) : Nat → α → DfsState α → Bool × DfsState α
  | 0, _, s => (true, s)
  | fuel + 1, x, s =>
    if x ∈ s.stack then (true, { s with cycles := insert x s.cycles })
    else if x ∈ s.visited then (false, s)
    else
      let r := (g x).foldl
        (fun acc m => if acc.1 then acc else hasCycle g fuel m acc.2)
        (false, { s with visited := insert x s.visited,
                         stack := insert x s.stack })
      if r.1 then (true, { r.2 with cycles := insert x r.2.cycles })
      else (false, { r.2 with stack := r.2.stack.erase x })

/-- The body of the neighbor loop of hasCycle. -/
def dfsStep (g : α → List α) (fuel : Nat) (acc : Bool × DfsState α) (m : α) :
    Bool × DfsState α :=
  if acc.1 then acc else hasCycle g fuel m acc.2

theorem hasCycle_succ (g : α → List α) (fuel : Nat) (x : α) (s : DfsState α) :
    hasCycle g (fuel + 1) x s =
      if x ∈ s.stack then (true, { s with cycles := insert x s.cycles })
      else if x ∈ s.visited then (false, s)
      else
        let r := (g x).foldl (dfsStep g fuel)
          (false, { s with visited := insert x s.visited,
                           stack := insert x s.stack })
        if r.1 then (true, { r.2 with cycles := insert x r.2.cycles })
        else (false, { r.2 with stack := r.2.stack.erase x }) := rfl

/-- The invariant of the search state: the stack is visited; a visited
node off the stack cannot reach a cycle; marked nodes reach a cycle; the
visited set stays inside the node universe. -/
def DfsInv (g : α → List α) (N : Finset α) (s : DfsState α) : Prop :=
  s.stack ⊆ s.visited ∧
  s.visited ⊆ N ∧
  (∀ y ∈ s.visited, y ∉ s.stack → ¬ reachesCycle g y) ∧
  (∀ y ∈ s.cycles, reachesCycle g y)

theorem foldl_dfsStep_true (g : α → List α) (fuel : Nat) :
    ∀ (ms : List α) (sc : DfsState α),
    ms.foldl (dfsStep g fuel) (true, sc) = (true, sc) := by
  intro ms
  induction ms with
  | nil => intro sc; rfl
  | cons m ms ih => intro sc; exact ih sc

theorem dfsStep_false (g : α → List α) (fuel : Nat) (sc : DfsState α)
    (m : α) : dfsStep g fuel (false, sc) m = hasCycle g fuel m sc := rfl

/-- The full behaviour of one hasCycle call, under the state invariant and
enough fuel: the invariant is preserved, the visited set only grows and
now holds the node, the marked set only grows, a false verdict leaves
stack and marks unchanged and certifies that the node cannot reach any
cycle, and a true verdict marks the node, certifies that it reaches a
cycle, and any node newly left on the stack reaches a cycle. -/
theorem hasCycle_spec (g : α → List α) (N : Finset α)
    (hcl : ∀ a b, b ∈ g a → b ∈ N) :
    ∀ (fuel : Nat) (x : α) (s : DfsState α) (b : Bool) (s' : DfsState α),
    x ∈ N → DfsInv g N s → (N \ s.visited).card < fuel →
    (∀ y ∈ s.stack, reachesCycle g y ∨ Relation.TransGen (stepRel g) y x) →
    hasCycle g fuel x s = (b, s') →
    DfsInv g N s' ∧ s.visited ⊆ s'.visited ∧ x ∈ s'.visited ∧
    s.cycles ⊆ s'.cycles ∧
    (b = false → s'.stack = s.stack ∧ s'.cycles = s.cycles ∧
      ¬ reachesCycle g x) ∧
    (b = true → x ∈ s'.cycles ∧ reachesCycle g x ∧
      ∀ y ∈ s'.stack, y ∈ s.stack ∨ reachesCycle g y) := by
  intro fuel
  induction fuel with
  | zero =>
    intro x s b s' _ _ hfuel _ _
    exact absurd hfuel (Nat.not_lt_zero _)
  | succ fuel ihf =>
    intro x s b s' hxN hInv hfuel hPK heq
    rw [hasCycle_succ] at heq
    by_cases hstack : x ∈ s.stack
    · rw [if_pos hstack] at heq
      injection heq with hb hs
      subst hb; subst hs
      have hRCx : reachesCycle g x := by
        rcases hPK x hstack with h | h
        · exact h
        · rcases (Relation.TransGen.head'_iff).mp h with ⟨w, hxw, hwx⟩
          exact ⟨x, Relation.ReflTransGen.refl, ⟨w, hxw, hwx⟩⟩
      refine ⟨⟨hInv.1, hInv.2.1, hInv.2.2.1, ?_⟩, le_refl _, hInv.1 hstack,
        Finset.subset_insert _ _, ?_, ?_⟩
      · intro y hy
        rcases Finset.mem_insert.mp hy with rfl | hy
        · exact hRCx
        · exact hInv.2.2.2 y hy
      · intro hfalse; cases hfalse
      · intro _
        exact ⟨Finset.mem_insert_self x _, hRCx, fun y hy => Or.inl hy⟩
    · rw [if_neg hstack] at heq
      by_cases hvis : x ∈ s.visited
      · rw [if_pos hvis] at heq
        injection heq with hb hs
        subst hb; subst hs
        have hnRCx : ¬ reachesCycle g x := hInv.2.2.1 x hvis hstack
        exact ⟨hInv, le_refl _, hvis, le_refl _,
          fun _ => ⟨rfl, rfl, hnRCx⟩, fun htrue => by cases htrue⟩
      · rw [if_neg hvis] at heq
        simp only [] at heq
        -- the pushed state
        have hInv1 : DfsInv g N
            ⟨insert x s.visited, insert x s.stack, s.cycles⟩ := by
          refine ⟨Finset.insert_subset_insert x hInv.1,
            Finset.insert_subset_iff.mpr ⟨hxN, hInv.2.1⟩, ?_, hInv.2.2.2⟩
          intro y hy hyn
          rcases Finset.mem_insert.mp hy with rfl | hy
          · exact absurd (Finset.mem_insert_self y _) hyn
          · exact hInv.2.2.1 y hy (fun hk => hyn (Finset.mem_insert_of_mem hk))
        have hfuel1 : (N \ (insert x s.visited)).card < fuel := by
          have hx' : x ∈ N \ s.visited := Finset.mem_sdiff.mpr ⟨hxN, hvis⟩
          have hsub : N \ insert x s.visited ⊆ N \ s.visited :=
            Finset.sdiff_subset_sdiff (Finset.Subset.refl N)
              (Finset.subset_insert x _)
          have hss : N \ insert x s.visited ⊂ N \ s.visited := by
            refine ⟨hsub, fun hsup => ?_⟩
            have := hsup hx'
            rw [Finset.mem_sdiff] at this
            exact this.2 (Finset.mem_insert_self x _)
          have := Finset.card_lt_card hss
          omega
        have hPK1 : ∀ y ∈ (insert x s.stack : Finset α),
            reachesCycle g y ∨
            ∀ m ∈ g x, Relation.TransGen (stepRel g) y m := by
          intro y hy
          rcases Finset.mem_insert.mp hy with rfl | hy
          · exact Or.inr (fun m hm => Relation.TransGen.single hm)
          · rcases hPK y hy with h | h
            · exact Or.inl h
            · exact Or.inr (fun m hm => Relation.TransGen.tail h hm)
        -- the neighbor fold
        have fold_spec : ∀ (ms : List α), (∀ m ∈ ms, m ∈ g x) →
            ∀ (sc : DfsState α) (b2 : Bool) (sc2 : DfsState α),
            DfsInv g N sc → (N \ sc.visited).card < fuel →
            (∀ y ∈ sc.stack, reachesCycle g y ∨
              ∀ m ∈ g x, Relation.TransGen (stepRel g) y m) →
            ms.foldl (dfsStep g fuel) (false, sc) = (b2, sc2) →
            DfsInv g N sc2 ∧ sc.visited ⊆ sc2.visited ∧
            sc.cycles ⊆ sc2.cycles ∧
            (b2 = false → sc2.stack = sc.stack ∧ sc2.cycles = sc.cycles ∧
              ∀ m ∈ ms, ¬ reachesCycle g m) ∧
            (b2 = true → (∃ m ∈ ms, reachesCycle g m) ∧
              ∀ y ∈ sc2.stack, y ∈ sc.stack ∨ reachesCycle g y) := by
          intro ms
          induction ms with
          | nil =>
            intro _ sc b2 sc2 hInv2 _ _ heq2
            injection heq2 with hb hs
            subst hb; subst hs
            refine ⟨hInv2, le_refl _, le_refl _, ?_, ?_⟩
            · intro _; exact ⟨rfl, rfl, fun m hm => absurd hm (List.not_mem_nil m)⟩
            · intro htrue; cases htrue
          | cons m ms ihm =>
            intro hms sc b2 sc2 hInv2 hfuel2 hPK2 heq2
            rw [List.foldl_cons, dfsStep_false] at heq2
            cases hpair : hasCycle g fuel m sc with
            | mk b1 sc1 =>
              rw [hpair] at heq2
              have hmN : m ∈ N := hcl x m (hms m (List.mem_cons_self m ms))
              have hPKm : ∀ y ∈ sc.stack, reachesCycle g y ∨
                  Relation.TransGen (stepRel g) y m := by
                intro y hy
                rcases hPK2 y hy with h | h
                · exact Or.inl h
                · exact Or.inr (h m (hms m (List.mem_cons_self m ms)))
              have hvm := ihf m sc b1 sc1 hmN hInv2 hfuel2 hPKm hpair
              cases b1 with
              | true =>
                rw [foldl_dfsStep_true] at heq2
                injection heq2 with hb hs
                subst hb; subst hs
                have htr := hvm.2.2.2.2.2 rfl
                refine ⟨hvm.1, hvm.2.1, hvm.2.2.2.1, ?_, ?_⟩
                · intro hfalse; cases hfalse
                · intro _
                  exact ⟨⟨m, List.mem_cons_self m ms, htr.2.1⟩, htr.2.2⟩
              | false =>
                have hfa := hvm.2.2.2.2.1 rfl
                have hfuel3 : (N \ sc1.visited).card < fuel := by
                  have hsub : N \ sc1.visited ⊆ N \ sc.visited :=
                    Finset.sdiff_subset_sdiff (Finset.Subset.refl N) hvm.2.1
                  exact Nat.lt_of_le_of_lt (Finset.card_le_card hsub) hfuel2
                have hPK3 : ∀ y ∈ sc1.stack, reachesCycle g y ∨
                    ∀ m' ∈ g x, Relation.TransGen (stepRel g) y m' := by
                  rw [hfa.1]; exact hPK2
                have htail := ihm (fun m' hm' => hms m' (List.mem_cons_of_mem m hm'))
                  sc1 b2 sc2 hvm.1 hfuel3 hPK3 heq2
                refine ⟨htail.1, hvm.2.1.trans htail.2.1,
                  hvm.2.2.2.1.trans htail.2.2.1, ?_, ?_⟩
                · intro hb2
                  have h4 := htail.2.2.2.1 hb2
                  refine ⟨h4.1.trans hfa.1, h4.2.1.trans hfa.2.1, ?_⟩
                  intro m' hm'
                  rcases List.mem_cons.mp hm' with rfl | hm'
                  · exact hfa.2.2
                  · exact h4.2.2 m' hm'
                · intro hb2
                  have h4 := htail.2.2.2.2 hb2
                  refine ⟨?_, ?_⟩
                  · rcases h4.1 with ⟨m', hm', hr⟩
                    exact ⟨m', List.mem_cons_of_mem m hm', hr⟩
                  · intro y hy
                    rcases h4.2 y hy with hy2 | hy2
                    · rw [hfa.1] at hy2; exact Or.inl hy2
                    · exact Or.inr hy2
        -- apply the fold specification and finish the two verdicts
        cases hfold : (g x).foldl (dfsStep g fuel)
            (false, ⟨insert x s.visited, insert x s.stack, s.cycles⟩) with
        | mk b2 sc2 =>
          have hfs := fold_spec (g x) (fun m hm => hm)
            ⟨insert x s.visited, insert x s.stack, s.cycles⟩ b2 sc2
            hInv1 hfuel1 hPK1 hfold
          rw [hfold] at heq
          cases b2 with
          | true =>
            rw [if_pos rfl] at heq
            injection heq with hb hs
            subst hb; subst hs
            have htr := hfs.2.2.2.2 rfl
            have hRCx : reachesCycle g x := (reachesCycle_iff g x).mpr
              (by rcases htr.1 with ⟨m, hm, hr⟩; exact ⟨m, hm, hr⟩)
            have hxvis : x ∈ sc2.visited :=
              hfs.2.1 (Finset.mem_insert_self x _)
            refine ⟨⟨hfs.1.1, hfs.1.2.1, hfs.1.2.2.1, ?_⟩, ?_, hxvis, ?_, ?_, ?_⟩
            · intro y hy
              rcases Finset.mem_insert.mp hy with rfl | hy
              · exact hRCx
              · exact hfs.1.2.2.2 y hy
            · exact (Finset.subset_insert x s.visited).trans hfs.2.1
            · exact hfs.2.2.1.trans (Finset.subset_insert _ _)
            · intro hfalse; cases hfalse
            · intro _
              refine ⟨Finset.mem_insert_self x _, hRCx, ?_⟩
              intro y hy
              rcases htr.2 y hy with hy2 | hy2
              · rcases Finset.mem_insert.mp hy2 with rfl | hy2
                · exact Or.inr hRCx
                · exact Or.inl hy2
              · exact Or.inr hy2
          | false =>
            rw [if_neg (by simp)] at heq
            injection heq with hb hs
            subst hb; subst hs
            have hfa := hfs.2.2.2.1 rfl
            have hnRCx : ¬ reachesCycle g x := by
              intro hr
              rcases (reachesCycle_iff g x).mp hr with ⟨m, hm, hrm⟩
              exact hfa.2.2 m hm hrm
            have hstackeq : sc2.stack.erase x = s.stack := by
              rw [hfa.1]
              exact Finset.erase_insert hstack
            have hvsub : s.visited ⊆ sc2.visited :=
              (Finset.subset_insert x s.visited).trans hfs.2.1
            refine ⟨⟨?_, hfs.1.2.1, ?_, ?_⟩, hvsub,
              hfs.2.1 (Finset.mem_insert_self x _), hfs.2.2.1, ?_, ?_⟩
            · rw [hstackeq]
              exact (hInv.1.trans hvsub)
            · intro y hy hyn
              rw [hstackeq] at hyn
              by_cases hyx : y = x
              · subst hyx; exact hnRCx
              · refine hfs.1.2.2.1 y hy ?_
                rw [hfa.1]
                intro hmem
                rcases Finset.mem_insert.mp hmem with h | h
                · exact hyx h
                · exact hyn h
            · rw [hfa.2.1]; exact hInv.2.2.2
            · intro _
              exact ⟨hstackeq, hfa.2.1, hnRCx⟩
            · intro htrue; cases htrue

/-- The outer loop of detectAndRemoveCycles: run hasCycle from every graph
key, threading the state. -/
def runKeys (g : α → List α) (fuel : Nat) (keys : List α) : DfsState α :=
  keys.foldl (fun s k => (hasCycle g fuel k s).2) ⟨∅, ∅, ∅⟩

theorem runKeys_fold_spec (g : α → List α) (N : Finset α)
    (hcl : ∀ a b, b ∈ g a → b ∈ N) :
    ∀ (keys : List α), (∀ k ∈ keys, k ∈ N) →
    ∀ s : DfsState α, DfsInv g N s → (∀ y ∈ s.stack, reachesCycle g y) →
    DfsInv g N (keys.foldl (fun s k => (hasCycle g (N.card + 1) k s).2) s) ∧
    s.cycles ⊆
      (keys.foldl (fun s k => (hasCycle g (N.card + 1) k s).2) s).cycles ∧
    (∀ y ∈ (keys.foldl (fun s k => (hasCycle g (N.card + 1) k s).2) s).stack,
      reachesCycle g y) ∧
    (∀ k ∈ keys, reachesCycle g k →
      k ∈ (keys.foldl (fun s k => (hasCycle g (N.card + 1) k s).2) s).cycles) := by
  intro keys
  induction keys with
  | nil =>
    intro _ s hInv hstackRC
    exact ⟨hInv, Finset.Subset.refl _, hstackRC,
      fun k hk => absurd hk (List.not_mem_nil k)⟩
  | cons k keys ih =>
    intro hkeys s hInv hstackRC
    simp only [List.foldl_cons]
    cases hk : hasCycle g (N.card + 1) k s with
    | mk b1 s1 =>
      have hfuel : (N \ s.visited).card < N.card + 1 :=
        Nat.lt_succ_of_le (Finset.card_le_card (Finset.sdiff_subset))
      have hspec := hasCycle_spec g N hcl (N.card + 1) k s b1 s1
        (hkeys k (List.mem_cons_self k keys)) hInv hfuel
        (fun y hy => Or.inl (hstackRC y hy)) hk
      have hstack1 : ∀ y ∈ s1.stack, reachesCycle g y := by
        intro y hy
        cases b1 with
        | true =>
          rcases (hspec.2.2.2.2.2 rfl).2.2 y hy with h | h
          · exact hstackRC y h
          · exact h
        | false =>
          rw [(hspec.2.2.2.2.1 rfl).1] at hy
          exact hstackRC y hy
      have hrest := ih (fun k' hk' => hkeys k' (List.mem_cons_of_mem k hk'))
        s1 hspec.1 hstack1
      refine ⟨hrest.1, hspec.2.2.2.1.trans hrest.2.1, hrest.2.2.1, ?_⟩
      intro k' hk' hRC
      rcases List.mem_cons.mp hk' with rfl | hk'
      · cases b1 with
        | true => exact hrest.2.1 ((hspec.2.2.2.2.2 rfl).1)
        | false => exact absurd hRC (hspec.2.2.2.2.1 rfl).2.2
      · exact hrest.2.2.2 k' hk' hRC

/-- Insertion-ordered deduplication, the key set of a JavaScript Map built
by repeated `set`. -/
def insertionKeys (l : List α) : List α :=
  l.foldl (fun acc v => if v ∈ acc then acc else acc ++ [v]) []

theorem mem_insertionKeys_fold (x : α) : ∀ (l acc : List α),
    (x ∈ l.foldl (fun acc v => if v ∈ acc then acc else acc ++ [v]) acc ↔
      x ∈ acc ∨ x ∈ l) := by
  intro l
  induction l with
  | nil => intro acc; simp
  | cons v l ih =>
    intro acc
    rw [List.foldl_cons]
    by_cases hv : v ∈ acc
    · rw [if_pos hv, ih]
      constructor
      · rintro (h | h)
        · exact Or.inl h
        · exact Or.inr (List.mem_cons_of_mem v h)
      · rintro (h | h)
        · exact Or.inl h
        · rcases List.mem_cons.mp h with rfl | h
          · exact Or.inl hv
          · exact Or.inr h
    · rw [if_neg hv, ih]
      constructor
      · rintro (h | h)
        · rcases List.mem_append.mp h with h | h
          · exact Or.inl h
          · simp only [List.mem_singleton] at h
            exact Or.inr (h ▸ List.mem_cons_self v l)
        · exact Or.inr (List.mem_cons_of_mem v h)
      · rintro (h | h)
        · exact Or.inl (List.mem_append.mpr (Or.inl h))
        · rcases List.mem_cons.mp h with rfl | h
          · exact Or.inl (List.mem_append.mpr (Or.inr (by simp)))
          · exact Or.inr h

theorem mem_insertionKeys (x : α) (l : List α) :
    x ∈ insertionKeys l ↔ x ∈ l := by
  unfold insertionKeys
  rw [mem_insertionKeys_fold]
  simp

/-! Reference reachability: expand the frontier along all edges a bounded
number of times; within a finite node universe, `card` many expansions
saturate, so membership after that many steps is plain reachability.  This
gives a decidable specification predicate to state the claim with. -/

/-- Expand a node set by one step along every edge. -/
def stepOnce (g : α → List α) (s : Finset α) : Finset α :=
  s ∪ s.biUnion (fun v => (g v).toFinset)

/-- Iterated expansion. -/
def iterStep (g : α → List α) : Nat → Finset α → Finset α
  | 0, s => s
  | n + 1, s => stepOnce g (iterStep g n s)

theorem subset_stepOnce (g : α → List α) (s : Finset α) : s ⊆ stepOnce g s :=
  Finset.subset_union_left

theorem iterStep_mono_succ (g : α → List α) (n : Nat) (s : Finset α) :
    iterStep g n s ⊆ iterStep g (n + 1) s :=
  subset_stepOnce g (iterStep g n s)

theorem iterStep_mono (g : α → List α) (s : Finset α) {m n : Nat}
    (h : m ≤ n) : iterStep g m s ⊆ iterStep g n s := by
  induction n with
  | zero =>
    rw [Nat.le_zero.mp h]
  | succ n ih =>
    rcases Nat.lt_or_ge m (n + 1) with h2 | h2
    · exact (ih (Nat.lt_succ_iff.mp h2)).trans (iterStep_mono_succ g n s)
    · rw [Nat.le_antisymm h h2]

theorem iterStep_sound (g : α → List α) (x : α) :
    ∀ (n : Nat) (v : α), v ∈ iterStep g n {x} →
    Relation.ReflTransGen (stepRel g) x v := by
  intro n
  induction n with
  | zero =>
    intro v hv
    rw [Finset.mem_singleton.mp hv]
  | succ n ih =>
    intro v hv
    rcases Finset.mem_union.mp hv with hv | hv
    · exact ih v hv
    · rcases Finset.mem_biUnion.mp hv with ⟨u, hu, hvu⟩
      exact Relation.ReflTransGen.tail (ih u hu) (List.mem_toFinset.mp hvu)

theorem iterStep_stable (g : α → List α) (s : Finset α) {n : Nat}
    (h : iterStep g (n + 1) s = iterStep g n s) :
    ∀ m, n ≤ m → iterStep g m s = iterStep g n s := by
  intro m hm
  induction m with
  | zero => rw [Nat.le_zero.mp hm]
  | succ m ih =>
    rcases Nat.lt_or_ge n (m + 1) with h2 | h2
    · have hnm : n ≤ m := Nat.lt_succ_iff.mp h2
      have := ih hnm
      show stepOnce g (iterStep g m s) = iterStep g n s
      rw [this]
      exact h
    · rw [Nat.le_antisymm hm h2]

theorem iterStep_growth (g : α → List α) (x : α) :
    ∀ n : Nat, iterStep g (n + 1) {x} = iterStep g n {x} ∨
      n + 1 ≤ (iterStep g n {x}).card := by
  intro n
  induction n with
  | zero => exact Or.inr (by rw [show iterStep g 0 {x} = {x} from rfl]; simp)
  | succ n ih =>
    by_cases h : iterStep g (n + 1) {x} = iterStep g n {x}
    · left
      show stepOnce g (iterStep g (n + 1) {x}) = iterStep g (n + 1) {x}
      rw [h]
      exact h
    · rcases ih with h2 | h2
      · exact absurd h2 h
      · right
        have hsub : iterStep g n {x} ⊆ iterStep g (n + 1) {x} :=
          iterStep_mono_succ g n {x}
        have hss : iterStep g n {x} ⊂ iterStep g (n + 1) {x} :=
          ⟨hsub, fun hsup => h (Finset.Subset.antisymm hsup hsub)⟩
        have := Finset.card_lt_card hss
        omega

theorem iterStep_bound (g : α → List α) (N : Finset α)
    (hcl : ∀ a b, b ∈ g a → b ∈ N) (x : α) :
    ∀ n : Nat, iterStep g n {x} ⊆ insert x N := by
  intro n
  induction n with
  | zero =>
    intro v hv
    rw [Finset.mem_singleton.mp hv]
    exact Finset.mem_insert_self x N
  | succ n ih =>
    intro v hv
    rcases Finset.mem_union.mp hv with hv | hv
    · exact ih hv
    · rcases Finset.mem_biUnion.mp hv with ⟨u, _, hvu⟩
      exact Finset.mem_insert_of_mem (hcl u v (List.mem_toFinset.mp hvu))

theorem iterStep_closed (g : α → List α) (N : Finset α)
    (hcl : ∀ a b, b ∈ g a → b ∈ N) (x : α) :
    ∀ u ∈ iterStep g (insert x N).card {x}, ∀ v ∈ g u,
      v ∈ iterStep g (insert x N).card {x} := by
  have hstab : iterStep g ((insert x N).card + 1) {x} =
      iterStep g (insert x N).card {x} := by
    rcases iterStep_growth g x (insert x N).card with h | h
    · exact h
    · have hb := Finset.card_le_card
        (iterStep_bound g N hcl x (insert x N).card)
      omega
  intro u hu v hv
  have : v ∈ iterStep g ((insert x N).card + 1) {x} := by
    show v ∈ stepOnce g (iterStep g (insert x N).card {x})
    exact Finset.mem_union_right _
      (Finset.mem_biUnion.mpr ⟨u, hu, List.mem_toFinset.mpr hv⟩)
  rw [hstab] at this
  exact this

theorem iterStep_complete (g : α → List α) (N : Finset α)
    (hcl : ∀ a b, b ∈ g a → b ∈ N) {x v : α}
    (h : Relation.ReflTransGen (stepRel g) x v) :
    v ∈ iterStep g (insert x N).card {x} := by
  induction h with
  | refl =>
    exact iterStep_mono g {x} (Nat.zero_le _) (Finset.mem_singleton_self x)
  | tail hab hbc ih =>
    exact iterStep_closed g N hcl x _ ih _ hbc

/-- Decidable specification of reaching a cycle: some node reachable from
`x` within card-many expansions has an edge to a node from which it is
itself reachable. -/
def ReachesCycleDec (g : α → List α) (N : Finset α) (x : α) : Prop :=
  ∃ v ∈ iterStep g (insert x N).card {x}, ∃ w ∈ g v,
    v ∈ iterStep g (insert w N).card {w}

instance decReachesCycleDec (g : α → List α) (N : Finset α) (x : α) :
    Decidable (ReachesCycleDec g N x) := by
  unfold ReachesCycleDec
  infer_instance

theorem reachesCycleDec_iff (g : α → List α) (N : Finset α)
    (hcl : ∀ a b, b ∈ g a → b ∈ N) (x : α) :
    ReachesCycleDec g N x ↔ reachesCycle g x := by
  constructor
  · rintro ⟨v, hv, w, hw, hvw⟩
    exact ⟨v, iterStep_sound g x _ v hv, ⟨w, hw, iterStep_sound g w _ v hvw⟩⟩
  · rintro ⟨v, hxv, w, hw, hwv⟩
    exact ⟨v, iterStep_complete g N hcl hxv, w, hw,
      iterStep_complete g N hcl hwv⟩

end CycleDetection

/-- The adjacency function of the transform graph: the canonical targets
of all transforms with the given canonical source, in list order (the
graph Map of detectAndRemoveCycles). -/
def transformGraph (norm : String → String) (ts : List Transform) :
    String → List String :=
  fun v => ((ts.map (fun t => (norm t.source, norm t.target))).filter
    (fun p => p.1 = v)).map (fun p => p.2)

/-- All canonical sources and targets of the transform list. -/
def transformNodes (norm : String → String) (ts : List Transform) :
    Finset String :=
  ((ts.map (fun t => norm t.source)) ++
    (ts.map (fun t => norm t.target))).toFinset

/-- The cycle-node set computed by the search of detectAndRemoveCycles. -/
def cycleNodes (norm : String → String) (ts : List Transform) :
    Finset String :=
  (runKeys (transformGraph norm ts) ((transformNodes norm ts).card + 1)
    (insertionKeys (ts.map (fun t => norm t.source)))).cycles

/-- detectAndRemoveCycles from the source: keep exactly the transforms
neither of whose canonical endpoints is a marked cycle node. -/
def detectAndRemoveCycles (norm : String → String)
    (transforms : List Transform) : List Transform :=
  transforms.filter (fun t =>
    ¬ norm t.source ∈ cycleNodes norm transforms ∧
    ¬ norm t.target ∈ cycleNodes norm transforms)

theorem transformGraph_closure (norm : String → String) (ts : List Transform) :
    ∀ a b, b ∈ transformGraph norm ts a → b ∈ transformNodes norm ts := by
  intro a b hb
  unfold transformGraph at hb
  rcases List.mem_map.mp hb with ⟨p, hp, rfl⟩
  have hp2 := List.mem_of_mem_filter hp
  rcases List.mem_map.mp hp2 with ⟨t, ht, rfl⟩
  unfold transformNodes
  rw [List.mem_toFinset]
  exact List.mem_append.mpr (Or.inr (List.mem_map.mpr ⟨t, ht, rfl⟩))

theorem reaches_mem_keys (norm : String → String) (ts : List Transform)
    (v : String) (h : reachesCycle (transformGraph norm ts) v) :
    v ∈ insertionKeys (ts.map (fun t => norm t.source)) := by
  rcases (reachesCycle_iff _ v).mp h with ⟨m, hm, _⟩
  unfold transformGraph at hm
  rcases List.mem_map.mp hm with ⟨p, hp, _⟩
  have hp1 : p.1 = v := by simpa using List.of_mem_filter hp
  have hp2 := List.mem_of_mem_filter hp
  rcases List.mem_map.mp hp2 with ⟨t, ht, rfl⟩
  rw [mem_insertionKeys]
  exact List.mem_map.mpr ⟨t, ht, hp1⟩

theorem mem_cycleNodes_iff (norm : String → String) (ts : List Transform)
    (v : String) :
    v ∈ cycleNodes norm ts ↔ reachesCycle (transformGraph norm ts) v := by
  have hcl := transformGraph_closure norm ts
  have hkeysN : ∀ k ∈ insertionKeys (ts.map (fun t => norm t.source)),
      k ∈ transformNodes norm ts := by
    intro k hk
    rw [mem_insertionKeys] at hk
    unfold transformNodes
    rw [List.mem_toFinset]
    exact List.mem_append.mpr (Or.inl hk)
  have hInv0 : DfsInv (transformGraph norm ts) (transformNodes norm ts)
      ⟨∅, ∅, ∅⟩ := by
    refine ⟨Finset.empty_subset _, Finset.empty_subset _, ?_, ?_⟩
    · intro y hy; cases Finset.not_mem_empty y hy
    · intro y hy; cases Finset.not_mem_empty y hy
  have hrun := runKeys_fold_spec (transformGraph norm ts)
    (transformNodes norm ts) hcl
    (insertionKeys (ts.map (fun t => norm t.source))) hkeysN
    ⟨∅, ∅, ∅⟩ hInv0 (fun y hy => absurd hy (Finset.not_mem_empty y))
  constructor
  · intro hv
    exact hrun.1.2.2.2 v hv
  · intro hRC
    exact hrun.2.2.2 v (reaches_mem_keys norm ts v hRC) hRC

/-- Claim C1 (amended): cycle detection removes exactly the transforms
whose canonical source or target can reach a directed cycle along graph
edges — every transform with an endpoint on a cycle, or on a path leading
into one, is removed, and every transform neither of whose endpoints
reaches a cycle is retained unchanged, in order.  (The original claim
retained every transform outside all cycles; transforms feeding into a
cycle are outside all cycles yet removed, see the counterexample.)  The
decidable predicate ReachesCycleDec is proved equivalent to the plain
reachability statement in the second conjunct. -/
theorem C1_cycle_detection (norm : String → String) (ts : List Transform) :
    detectAndRemoveCycles norm ts =
      ts.filter (fun t =>
        ¬ ReachesCycleDec (transformGraph norm ts) (transformNodes norm ts)
            (norm t.source) ∧
        ¬ ReachesCycleDec (transformGraph norm ts) (transformNodes norm ts)
            (norm t.target)) ∧
    (∀ v, ReachesCycleDec (transformGraph norm ts) (transformNodes norm ts) v ↔
      reachesCycle (transformGraph norm ts) v) := by
  have hcl := transformGraph_closure norm ts
  constructor
  · unfold detectAndRemoveCycles
    apply List.filter_congr
    intro t ht
    apply decide_eq_decide.mpr
    apply and_congr <;> apply not_congr
    · exact (mem_cycleNodes_iff norm ts _).trans
        (reachesCycleDec_iff _ _ hcl _).symm
    · exact (mem_cycleNodes_iff norm ts _).trans
        (reachesCycleDec_iff _ _ hcl _).symm
  · intro v
    exact reachesCycleDec_iff _ _ hcl v

/-- The transform set of the counterexample: a two-cycle /a to /b to /a,
and a chain /d to /c to /a leading into it. -/
def cexTransforms : List Transform :=
  [⟨"/a", "/b"⟩, ⟨"/b", "/a"⟩, ⟨"/d", "/c"⟩, ⟨"/c", "/a"⟩]

/-- Claim C1 counterexample: the graph has a cycle (through /a); the
transform /d to /c touches no node of any cycle (neither /d nor /c lies on
a cycle), yet cycle detection removes it — the original claim would retain
it unchanged. -/
theorem C1_counterexample :
    onCycle (transformGraph id cexTransforms) "/a" ∧
    (⟨"/d", "/c"⟩ : Transform) ∈ cexTransforms ∧
    ¬ onCycle (transformGraph id cexTransforms) "/d" ∧
    ¬ onCycle (transformGraph id cexTransforms) "/c" ∧
    (⟨"/d", "/c"⟩ : Transform) ∉ detectAndRemoveCycles id cexTransforms := by
  refine ⟨?_, by decide, ?_, ?_, by decide⟩
  · exact ⟨"/b", by decide,
      Relation.ReflTransGen.single
        (show "/a" ∈ transformGraph id cexTransforms "/b" from by decide)⟩
  · rintro ⟨w, hw, hrtg⟩
    have hgd : transformGraph id cexTransforms "/d" = ["/c"] := by decide
    rw [hgd, List.mem_singleton] at hw
    subst hw
    have hmem := rtgClosedList (transformGraph id cexTransforms)
      ["/c", "/a", "/b"] (by decide) (by decide) hrtg
    exact absurd hmem (by decide)
  · rintro ⟨w, hw, hrtg⟩
    have hgc : transformGraph id cexTransforms "/c" = ["/a"] := by decide
    rw [hgc, List.mem_singleton] at hw
    subst hw
    have hmem := rtgClosedList (transformGraph id cexTransforms)
      ["/a", "/b"] (by decide) (by decide) hrtg
    exact absurd hmem (by decide)

end Nunjucksu
